import Mathlib

/-!
Verification of the MyAndroidLLM application core (src/App.tsx).

The app streams tokens from a llama.rn completion into a conversation,
separating `<think>...</think>` reasoning spans from visible content,
manages downloaded model artifacts and their persisted metadata, and
enforces a single loaded inference context.

JavaScript string operations used by the source are modelled over
character lists: `includes`, `endsWith`, one-occurrence `replace(pat, "")`,
the global non-greedy regex strip `/<think>.*?<\/think>/gs`, and `trim`.
-/

/-- Does the character list begin with the pattern list? -/
def startsWithL : List Char → List Char → Bool
  | _, [] => true
  | [], _ :: _ => false
  | a :: s, b :: p => a == b && startsWithL s p

/-- Does the character list contain the pattern list as a contiguous run? -/
def hasInfixL : List Char → List Char → Bool
  | [], p => p.isEmpty
  | a :: rest, p => startsWithL (a :: rest) p || hasInfixL rest p

/-- JavaScript `s.includes(pat)`. -/
def strContains (s pat : String) : Bool :=
  hasInfixL s.data pat.data

/-- JavaScript `s.endsWith(pat)`. -/
def strEndsWith (s pat : String) : Bool :=
  startsWithL s.data.reverse pat.data.reverse

/-- Split at the first occurrence of the pattern: returns the part before
the occurrence and the part after it, or `none` when the pattern is absent. -/
def splitFirstL : List Char → List Char → Option (List Char × List Char)
  | [], p => if startsWithL [] p then some ([], []) else none
  | c :: rest, p =>
    if startsWithL (c :: rest) p then some ([], (c :: rest).drop p.length)
    else
      match splitFirstL rest p with
      | some (b, a) => some (c :: b, a)
      | none => none

/-- JavaScript `s.replace(pat, "")` with a plain-string pattern: removes
only the first occurrence. -/
def removeFirst (s pat : String) : String :=
  match splitFirstL s.data pat.data with
  | some (b, a) => ⟨b ++ a⟩
  | none => s

/-- One pass of the global non-greedy regex `/<think>.*?<\/think>/gs`
replacement by `""`: repeatedly drop the span from the first `<think>`
to the first `</think>` after it; when either marker is missing the
remaining text is left untouched.  `fuel` bounds the recursion; each
step removes at least the two markers, so `s.length` fuel suffices. -/
def stripThinkL : Nat → List Char → List Char
  | 0, s => s
  | fuel + 1, s =>
    match splitFirstL s "<think>".data with
    | none => s
    | some (pre, rest1) =>
      match splitFirstL rest1 "</think>".data with
      | none => s
      | some (_, rest2) => pre ++ stripThinkL fuel rest2

/-- JavaScript `s.replace(/<think>.*?<\/think>/gs, "")`. -/
def stripThink (s : String) : String :=
  ⟨stripThinkL s.data.length s.data⟩

/-- JavaScript `s.trim()`. -/
def jsTrim (s : String) : String :=
  ⟨((s.data.dropWhile Char.isWhitespace).reverse.dropWhile Char.isWhitespace).reverse⟩

/-- Concatenation of a fragment sequence, in arrival order. -/
def strConcat (l : List String) : String :=
  l.foldl (fun a s => a ++ s) ""

/-- Message role (the `role` field of the source's `Message` type). -/
inductive Role
  | system
  | user
  | assistant
deriving DecidableEq, Repr

/-- The source's `Message` type: visible `content`, optional `thought`
(the published reasoning), and the reveal toggle. -/
structure Turn where
  role : Role
  content : String
  thought : Option String
  showThought : Bool
deriving DecidableEq, Repr

/-- The mutable state of the streaming completion callback in
`handleSendMessage`: `currentAssistantMessage`, `currentThought`,
`inThinkBlock`, and the in-flight assistant message being updated
in the conversation. -/
structure StreamState where
  msg : String
  curThought : String
  inThink : Bool
  turn : Turn
deriving DecidableEq, Repr

/-- The empty assistant placeholder appended before the first token. -/
def initialAssistantTurn : Turn :=
  { role := Role.assistant, content := "", thought := none, showThought := false }

def initialStreamState : StreamState :=
  { msg := "", curThought := "", inThink := false, turn := initialAssistantTurn }

/-- The per-token callback of `context.completion` in `handleSendMessage`
(src/App.tsx lines 559-607): append the token to the accumulated message,
run the `<think>` / `</think>` / in-block branch on the single token, then
overwrite the turn's visible content with the regex-stripped, trimmed
accumulated message. -/
def processToken (st : StreamState) (token : String) : StreamState :=
  let msg := st.msg ++ token
  let st1 :=
    if strContains token "<think>" then
      { st with inThink := true, curThought := removeFirst token "<think>" }
    else if strContains token "</think>" then
      let finalThought := jsTrim (removeFirst st.curThought "</think>")
      { st with
        inThink := false
        curThought := ""
        turn := { st.turn with
          content := removeFirst st.turn.content ("<think>" ++ finalThought ++ "</think>")
          thought := some finalThought } }
    else if st.inThink then
      { st with curThought := st.curThought ++ token }
    else
      st
  { st1 with msg := msg, turn := { st1.turn with content := jsTrim (stripThink msg) } }

/-- Process a whole fragment sequence from the fresh assistant placeholder. -/
def processAll (frags : List String) : StreamState :=
  frags.foldl processToken initialStreamState

lemma processToken_msg (st : StreamState) (token : String) :
    (processToken st token).msg = st.msg ++ token := rfl

lemma processToken_content (st : StreamState) (token : String) :
    (processToken st token).turn.content = jsTrim (stripThink (st.msg ++ token)) := rfl

lemma foldl_content (frags : List String) : ∀ st : StreamState,
    st.turn.content = jsTrim (stripThink st.msg) →
    (List.foldl processToken st frags).turn.content =
      jsTrim (stripThink (frags.foldl (fun a f => a ++ f) st.msg)) := by
  induction frags with
  | nil => intro st h; exact h
  | cons f rest ih =>
    intro st _
    simp only [List.foldl_cons]
    exact ih (processToken st f) rfl

lemma processToken_thought_of_no_close (st : StreamState) (token : String)
    (h : strContains token "</think>" = false) :
    (processToken st token).turn.thought = st.turn.thought := by
  unfold processToken
  cases hb : strContains token "<think>" <;> cases hc : st.inThink <;>
    simp [hb, hc, h]

lemma foldl_thought_none (frags : List String) : ∀ st : StreamState,
    (∀ f ∈ frags, strContains f "</think>" = false) →
    st.turn.thought = none →
    (List.foldl processToken st frags).turn.thought = none := by
  induction frags with
  | nil => intro st _ h0; exact h0
  | cons f rest ih =>
    intro st hall h0
    simp only [List.foldl_cons]
    refine ih (processToken st f) (fun g hg => hall g (List.mem_cons_of_mem _ hg)) ?_
    rw [processToken_thought_of_no_close st f (hall f (List.mem_cons_self _ _))]
    exact h0

/-- C1 counterexample: on the spec's own fragment sequence
`["Hello ", "<thi", "nk>planning</thin", "k> world"]` the closing marker is
split across fragments, no single token contains `"</think>"`, so the
`</think>` branch of the callback never fires and the turn's reasoning
field is never published — it is not `"planning"` as the claim requires. -/
theorem think_split_reasoning_cex :
    (processAll ["Hello ", "<thi", "nk>planning</thin", "k> world"]).turn.thought
      ≠ some "planning" := by
  decide

/-- C1 amended: for every fragment sequence, the turn's final visible
content equals the concatenation of the fragments with every complete
`<think>...</think>` span removed and the result trimmed (so a complete
pair, however split, never leaks into visible content); on the example
fragments this gives visible content `"Hello  world"`, while the
reasoning field stays unpublished because no single fragment carries the
complete closing marker. -/
theorem think_stream_visible_strips_pairs :
    (∀ frags : List String,
      (processAll frags).turn.content = jsTrim (stripThink (strConcat frags))) ∧
    (processAll ["Hello ", "<thi", "nk>planning</thin", "k> world"]).turn.content
      = "Hello  world" ∧
    (processAll ["Hello ", "<thi", "nk>planning</thin", "k> world"]).turn.thought
      = none := by
  refine ⟨fun frags => ?_, by decide, by decide⟩
  exact foldl_content frags initialStreamState (by decide)

/-- C2 counterexample: with fragments `["Hi ", "<think>", "secret"]` the
opening marker is never closed; the claim says the marker and the trailing
text are absent from the visible content, but the published visible content
is the whole accumulated message (the strip regex matches only complete
pairs), so both `"<think>"` and `"secret"` appear in it. -/
theorem unclosed_think_visible_cex :
    strContains (processAll ["Hi ", "<think>", "secret"]).turn.content "secret" = true ∧
    strContains (processAll ["Hi ", "<think>", "secret"]).turn.content "<think>" = true ∧
    (processAll ["Hi ", "<think>", "secret"]).turn.thought = none := by
  decide

/-- C2 amended: when no fragment contains the complete closing marker, the
reasoning field is indeed never published (it stays unset), but the text
after the opening marker is not hidden: the turn's visible content is the
full concatenation with only complete marker pairs stripped, so the opening
marker and the trailing text remain visible. -/
theorem unclosed_think_amended (frags : List String)
    (h : ∀ f ∈ frags, strContains f "</think>" = false) :
    (processAll frags).turn.thought = none ∧
    (processAll frags).turn.content = jsTrim (stripThink (strConcat frags)) := by
  constructor
  · exact foldl_thought_none frags initialStreamState h rfl
  · exact foldl_content frags initialStreamState (by decide)

theorem unclosed_think_amended_witness :
    (∀ f ∈ (["Hi ", "<think>", "secret"] : List String),
      strContains f "</think>" = false) ∧
    ((processAll ["Hi ", "<think>", "secret"]).turn.thought = none ∧
     (processAll ["Hi ", "<think>", "secret"]).turn.content =
       jsTrim (stripThink (strConcat ["Hi ", "<think>", "secret"]))) :=
  ⟨by decide, unclosed_think_amended ["Hi ", "<think>", "secret"] (by decide)⟩

/-- The fixed string appended by `stopGeneration` (src/App.tsx line 428). -/
def stopNotice : String := "\n\n*Generation stopped by user*"

/-- `stopGeneration` (src/App.tsx lines 415-437): after requesting
`context.stopCompletion()` (modelled by `stopOk`; when the request throws,
the catch block leaves the conversation untouched), the conversation is
updated: when its last message is an assistant message, the notice is
appended to that message's content; otherwise the conversation is returned
unchanged.  The app's conversation always starts from the fixed system
message, so it is never empty. -/
def stopGeneration (stopOk : Bool) (conv : List Turn) : List Turn :=
  if stopOk then
    match conv.getLast? with
    | some last =>
      if last.role = Role.assistant then
        conv.dropLast ++ [{ last with content := last.content ++ stopNotice }]
      else conv
    | none => conv
  else conv

/-- The fixed initial system message of `INITIAL_CONVERSATION`. -/
def systemTurn : Turn :=
  { role := Role.system
    content := "This is a conversation between user and assistant, a friendly chatbot."
    thought := none
    showThought := false }

/-- C3: cancelling while the in-flight assistant turn has streamed content
`v` leaves every earlier turn untouched and replaces the assistant turn's
content by exactly `v` followed by the fixed notice (rendered as
"Generation stopped by user"); no previously published text is removed. -/
theorem stop_appends_notice (pre : List Turn) (last : Turn)
    (h : last.role = Role.assistant) :
    stopGeneration true (pre ++ [last]) =
      pre ++ [{ last with content := last.content ++ stopNotice }] := by
  simp [stopGeneration, h]

theorem stop_appends_notice_witness :
    ({ initialAssistantTurn with content := "Hi" } : Turn).role = Role.assistant ∧
    stopGeneration true ([systemTurn] ++ [{ initialAssistantTurn with content := "Hi" }]) =
      [systemTurn] ++ [{ ({ initialAssistantTurn with content := "Hi" } : Turn) with
        content := ({ initialAssistantTurn with content := "Hi" } : Turn).content ++ stopNotice }] :=
  ⟨rfl, stop_appends_notice [systemTurn] { initialAssistantTurn with content := "Hi" } rfl⟩

/-- C10: when the conversation's last turn is not an assistant turn,
`stopGeneration` leaves the conversation log entirely unchanged — no
notice is appended and no turn is added, removed, or modified. -/
theorem stop_non_assistant_noop (stopOk : Bool) (pre : List Turn) (last : Turn)
    (h : ¬ last.role = Role.assistant) :
    stopGeneration stopOk (pre ++ [last]) = pre ++ [last] := by
  cases stopOk with
  | false => rfl
  | true => simp [stopGeneration, h]

theorem stop_non_assistant_noop_witness :
    (¬ ({ systemTurn with role := Role.user, content := "hello" } : Turn).role
        = Role.assistant) ∧
    stopGeneration true ([systemTurn] ++ [{ systemTurn with role := Role.user, content := "hello" }]) =
      [systemTurn] ++ [{ systemTurn with role := Role.user, content := "hello" }] :=
  ⟨by decide, stop_non_assistant_noop true [systemTurn] _ (by decide)⟩

/-- The engine-handle state backing `loadModel`: `live` is the multiset of
llama contexts currently held by the native engine (grown by `initLlama`,
emptied by `releaseAllLlama`), `ctx` the React `context` state. -/
structure LlamaState where
  live : List Nat
  ctx : Option Nat
deriving DecidableEq, Repr

/-- The release step at the start of `loadModel` (src/App.tsx lines
451-455): when a context is held, `releaseAllLlama()` drops every live
handle and `setContext(null)` clears the context; otherwise nothing
happens. -/
def afterRelease (s : LlamaState) : LlamaState :=
  if s.ctx.isSome then { live := [], ctx := none } else s

/-- `loadModel` (src/App.tsx lines 445-494): the release step runs first,
then `initLlama` either yields a fresh handle (then `setContext`) or
throws (caught; the function returns false with the state left as is).
Returns the sequence of intermediate states observed during the call
together with the final state. -/
def loadModel (s : LlamaState) (initResult : Option Nat) :
    List LlamaState × LlamaState :=
  let s1 := afterRelease s
  match initResult with
  | some h =>
    ([s1, { live := s1.live ++ [h], ctx := s1.ctx },
      { live := s1.live ++ [h], ctx := some h }],
     { live := s1.live ++ [h], ctx := some h })
  | none => ([s1], s1)

/-- App start: no context loaded, no engine handle live. -/
def initialLlama : LlamaState := { live := [], ctx := none }

/-- All states observed while performing a sequence of `loadModel` calls,
each call either succeeding with the given fresh handle or failing. -/
def runLoads : LlamaState → List (Option Nat) → List LlamaState
  | s, [] => [s]
  | s, r :: rest => s :: (loadModel s r).1 ++ runLoads (loadModel s r).2 rest

lemma runLoads_nil (s : LlamaState) : runLoads s [] = [s] := rfl

lemma runLoads_cons (s : LlamaState) (r : Option Nat) (rest : List (Option Nat)) :
    runLoads s (r :: rest) = s :: (loadModel s r).1 ++ runLoads (loadModel s r).2 rest := rfl

/-- Well-formedness tying the React context state to the native handles:
with no context no handle is held, and a held context is the unique live
handle. -/
def llamaWF (s : LlamaState) : Prop :=
  (s.ctx = none → s.live = []) ∧ ∀ h, s.ctx = some h → s.live = [h]

lemma llamaWF_initial : llamaWF initialLlama :=
  ⟨fun _ => rfl, fun _ hh => Option.noConfusion hh⟩

lemma afterRelease_live (s : LlamaState) (hwf : llamaWF s) :
    (afterRelease s).live = [] := by
  unfold afterRelease
  rcases hc : s.ctx with _ | c
  · simp only [hc, Option.isSome_none, Bool.false_eq_true, if_false]
    exact hwf.1 hc
  · simp [hc]

lemma afterRelease_wf (s : LlamaState) (hwf : llamaWF s) :
    llamaWF (afterRelease s) := by
  unfold afterRelease
  rcases hc : s.ctx with _ | c
  · simp only [hc, Option.isSome_none, Bool.false_eq_true, if_false]
    exact hwf
  · simp only [hc, Option.isSome_some, if_true]
    exact ⟨fun _ => rfl, fun _ hh => Option.noConfusion hh⟩

lemma loadModel_states (s : LlamaState) (r : Option Nat) (hwf : llamaWF s) :
    (∀ t ∈ (loadModel s r).1, t.live.length ≤ 1) ∧ llamaWF (loadModel s r).2 := by
  have h1 := afterRelease_live s hwf
  cases r with
  | none =>
    refine ⟨fun t ht => ?_, afterRelease_wf s hwf⟩
    have : t = afterRelease s := by simpa [loadModel] using ht
    rw [this, h1]
    decide
  | some h =>
    constructor
    · intro t ht
      simp only [loadModel, List.mem_cons, List.not_mem_nil, or_false] at ht
      rcases ht with ht | ht | ht <;> rw [ht] <;> simp [h1]
    · refine ⟨fun hc => by simp [loadModel] at hc, fun g hg => ?_⟩
      have hgh : g = h := by simpa [loadModel] using hg.symm
      simp [loadModel, h1, hgh]

lemma runLoads_live (ops : List (Option Nat)) : ∀ s : LlamaState, llamaWF s →
    s.live.length ≤ 1 → ∀ t ∈ runLoads s ops, t.live.length ≤ 1 := by
  induction ops with
  | nil =>
    intro s _ hlen t ht
    rw [runLoads_nil, List.mem_singleton] at ht
    rw [ht]; exact hlen
  | cons r rest ih =>
    intro s hwf hlen t ht
    rw [runLoads_cons] at ht
    simp only [List.mem_cons, List.mem_append] at ht
    rcases ht with (ht | ht) | ht
    · rw [ht]; exact hlen
    · exact (loadModel_states s r hwf).1 t ht
    · have hwf2 := (loadModel_states s r hwf).2
      have hlen2 : (loadModel s r).2.live.length ≤ 1 := by
        rcases hc : (loadModel s r).2.ctx with _ | g
        · rw [hwf2.1 hc]; decide
        · rw [hwf2.2 g hc]; simp
      exact ih (loadModel s r).2 hwf2 hlen2 t ht

/-- C4: after any sequence of `loadModel` calls, each possibly succeeding
or failing, every state observed during the sequence — including the
intermediate states inside each call — holds at most one live engine
handle: the existing context is released before the new `initLlama`
begins, so no two handles are ever live simultaneously. -/
theorem at_most_one_handle (ops : List (Option Nat)) (t : LlamaState)
    (ht : t ∈ runLoads initialLlama ops) : t.live.length ≤ 1 :=
  runLoads_live ops initialLlama llamaWF_initial (by decide) t ht

theorem at_most_one_handle_witness :
    ({ live := [2], ctx := some 2 } : LlamaState) ∈
      runLoads initialLlama [some 1, some 2] ∧
    ({ live := [2], ctx := some 2 } : LlamaState).live.length ≤ 1 :=
  ⟨by decide, at_most_one_handle [some 1, some 2] _ (by decide)⟩

/-- The source's `ModelMetadata` type: one record per downloaded artifact. -/
structure ModelMetadata where
  filename : String
  format : String
  downloadDate : String
  size : Option Nat
deriving DecidableEq, Repr

/-- Format inference of `checkDownloadedModels` (src/App.tsx lines
253-264): the filename is tested with `includes` against the capitalized
and the all-lowercase spelling of each family fragment, in this fixed
order, defaulting to "Unknown". -/
def inferFormat (filename : String) : String :=
  if strContains filename "Llama-3.2" || strContains filename "llama-3.2" then
    "Llama-3.2-1B-Instruct"
  else if strContains filename "Qwen2" || strContains filename "qwen2" then
    "Qwen2-0.5B-Instruct"
  else if strContains filename "DeepSeek" || strContains filename "deepseek" then
    "DeepSeek-R1-Distill-Qwen-1.5B"
  else if strContains filename "SmolLM" || strContains filename "smollm" then
    "SmolLM2-1.7B-Instruct"
  else "Unknown"

/-- Character-wise lowercasing (JavaScript `toLowerCase` restricted to
ASCII letters). -/
def toLowerStr (s : String) : String :=
  ⟨s.data.map Char.toLower⟩

/-- Modelled from the spec: "format inferred by case-insensitive substring
matching against each known model-family name embedded in the filename,
defaulting to Unknown if no family matches".  Comparison definition used
only to state how the claim's described mechanism differs from the source:
the filename is lowercased and each family fragment is matched
case-insensitively. -/
def inferFormatSpecCI (filename : String) : String :=
  let f := toLowerStr filename
  if strContains f "llama-3.2" then "Llama-3.2-1B-Instruct"
  else if strContains f "qwen2" then "Qwen2-0.5B-Instruct"
  else if strContains f "deepseek" then "DeepSeek-R1-Distill-Qwen-1.5B"
  else if strContains f "smollm" then "SmolLM2-1.7B-Instruct"
  else "Unknown"

/-- Startup reconciliation `checkDownloadedModels` (src/App.tsx lines
236-292) as a function of its inputs: the directory listing, the current
metadata mapping, the reconciliation time, and the file-size query (which
may fail, leaving the size undefined).  Every `.gguf` file not already in
the mapping gets a synthesized record appended. -/
def reconcile (files : List String) (meta : List ModelMetadata) (now : String)
    (sizes : String → Option Nat) : List ModelMetadata :=
  let ggufFiles := files.filter (fun f => strEndsWith f ".gguf")
  let existing := meta.map (fun m => m.filename)
  let newFiles := ggufFiles.filter (fun f => decide (f ∉ existing))
  meta ++ newFiles.map (fun f =>
    { filename := f, format := inferFormat f, downloadDate := now, size := sizes f })

lemma reconcile_def (files : List String) (meta : List ModelMetadata) (now : String)
    (sizes : String → Option Nat) :
    reconcile files meta now sizes =
      meta ++ ((files.filter (fun f => strEndsWith f ".gguf")).filter
          (fun f => decide (f ∉ meta.map (fun m => m.filename)))).map (fun f =>
        { filename := f, format := inferFormat f, downloadDate := now, size := sizes f }) := rfl

lemma reconcile_filenames (files : List String) (meta : List ModelMetadata)
    (now : String) (sizes : String → Option Nat) :
    (reconcile files meta now sizes).map (fun m => m.filename) =
      meta.map (fun m => m.filename) ++
        (files.filter (fun f => strEndsWith f ".gguf")).filter
          (fun f => decide (f ∉ meta.map (fun m => m.filename))) := by
  rw [reconcile_def, List.map_append, List.map_map]
  congr 1
  exact List.map_id _

/-- C5: startup reconciliation is idempotent — with the filesystem listing
fixed, a second run on the mapping produced by the first adds nothing —
and, when the directory listing has no duplicate names and the incoming
mapping has no duplicate filenames, the resulting mapping has no two
records with the same filename. -/
theorem reconcile_idempotent (files : List String) (meta : List ModelMetadata)
    (now now2 : String) (sizes sizes2 : String → Option Nat)
    (hf : files.Nodup) (hm : (meta.map (fun m => m.filename)).Nodup) :
    reconcile files (reconcile files meta now sizes) now2 sizes2 =
      reconcile files meta now sizes ∧
    ((reconcile files meta now sizes).map (fun m => m.filename)).Nodup := by
  have hgg : (files.filter (fun f => strEndsWith f ".gguf")).Nodup := hf.filter _
  constructor
  · rw [reconcile_def files (reconcile files meta now sizes) now2 sizes2]
    have hnil : (files.filter (fun f => strEndsWith f ".gguf")).filter
        (fun f => decide (f ∉ (reconcile files meta now sizes).map (fun m => m.filename)))
        = [] := by
      rw [List.filter_eq_nil_iff]
      intro f hfmem
      simp only [decide_eq_true_eq, not_not]
      rw [reconcile_filenames, List.mem_append]
      by_cases he : f ∈ meta.map (fun m => m.filename)
      · exact Or.inl he
      · exact Or.inr (List.mem_filter.mpr ⟨hfmem, by simpa using he⟩)
    rw [hnil]
    simp
  · rw [reconcile_filenames]
    refine List.Nodup.append hm (hgg.filter _) ?_
    intro a ha hb
    have := (List.mem_filter.mp hb).2
    simp only [decide_eq_true_eq] at this
    exact this ha

theorem reconcile_idempotent_witness :
    (["a.gguf", "b.gguf", "notes.txt"] : List String).Nodup ∧
    (([⟨"a.gguf", "Unknown", "t0", some 7⟩] : List ModelMetadata).map
      (fun m => m.filename)).Nodup ∧
    (reconcile ["a.gguf", "b.gguf", "notes.txt"]
        (reconcile ["a.gguf", "b.gguf", "notes.txt"]
          [⟨"a.gguf", "Unknown", "t0", some 7⟩] "t1" (fun _ => some 9))
        "t2" (fun _ => none) =
      reconcile ["a.gguf", "b.gguf", "notes.txt"]
        [⟨"a.gguf", "Unknown", "t0", some 7⟩] "t1" (fun _ => some 9) ∧
    ((reconcile ["a.gguf", "b.gguf", "notes.txt"]
        [⟨"a.gguf", "Unknown", "t0", some 7⟩] "t1" (fun _ => some 9)).map
      (fun m => m.filename)).Nodup) :=
  ⟨by decide, by decide,
    reconcile_idempotent ["a.gguf", "b.gguf", "notes.txt"]
      [⟨"a.gguf", "Unknown", "t0", some 7⟩] "t1" "t2" (fun _ => some 9)
      (fun _ => none) (by decide) (by decide)⟩

/-- C6 counterexample: the source's inference is not case-insensitive.
For the on-disk file `QWen2-0.5b-instruct-q4.gguf` the claim's
case-insensitive family matching yields the Qwen family, but the code
tests only the two spellings "Qwen2" and "qwen2", so reconciliation
synthesizes the record with format "Unknown". -/
theorem format_inference_not_case_insensitive :
    inferFormat "QWen2-0.5b-instruct-q4.gguf" = "Unknown" ∧
    inferFormatSpecCI "QWen2-0.5b-instruct-q4.gguf" = "Qwen2-0.5B-Instruct" ∧
    (reconcile ["QWen2-0.5b-instruct-q4.gguf"] [] "t" (fun _ => some 500)).map
      (fun m => m.format) = ["Unknown"] := by
  decide

/-- C6 amended: the record synthesized for an untracked on-disk file
matches the filename against the capitalized and all-lowercase spellings
of each family fragment (not fully case-insensitively), defaulting to
"Unknown", and carries the queried file size; in particular the file
`qwen2-instruct-q4.gguf` with no prior metadata yields exactly one record
whose format is the Qwen family and whose size is the file's actual
size. -/
theorem reconcile_qwen_example (n : Nat) (now : String) :
    reconcile ["qwen2-instruct-q4.gguf"] [] now (fun _ => some n) =
      [{ filename := "qwen2-instruct-q4.gguf", format := "Qwen2-0.5B-Instruct",
         downloadDate := now, size := some n }] := rfl

/-- JavaScript number falsiness of the optional `size` field, as tested by
`!updatedMetadata[existingIndex].size` (src/App.tsx line 339): an absent
size (and a zero size) counts as missing. -/
def jsFalsySize : Option Nat → Bool
  | none => true
  | some k => k == 0

/-- The size backfill of `handleDownloadModel` for an already-existing
file (src/App.tsx lines 336-346): the first record with the file's name,
when its size is missing, gets the measured size; everything else is
untouched. -/
def backfillSize : List ModelMetadata → String → Nat → List ModelMetadata
  | [], _, _ => []
  | m :: rest, file, sz =>
    if m.filename = file then
      (if jsFalsySize m.size then { m with size := some sz } else m) :: rest
    else
      m :: backfillSize rest file sz

/-- The metadata update after a successful transfer (src/App.tsx lines
383-392): replace the first record with the same filename, else append. -/
def upsertRecord : List ModelMetadata → ModelMetadata → List ModelMetadata
  | [], r => [r]
  | m :: rest, r =>
    if m.filename = r.filename then r :: rest else m :: upsertRecord rest r

/-- Observable outcome of one `handleDownloadModel` call: the resulting
metadata mapping, whether the byte transfer was performed, the progress
fractions delivered to the progress callback, and whether the model was
reported as already available ("File ... already exists, we will load it
directly"). -/
structure DownloadOutcome where
  meta : List ModelMetadata
  transferred : Bool
  progressEvents : List Nat
  alreadyAvailable : Bool
deriving DecidableEq, Repr

/-- The transfer branch of `handleDownloadModel` (src/App.tsx lines
362-405): `downloadModel` is invoked, the given progress fractions are
delivered, the downloaded file is measured (`dlSize`) and a fresh record
is upserted. -/
def doTransfer (file fmt now : String) (dlSize : Nat) (dlProgress : List Nat)
    (meta : List ModelMetadata) : DownloadOutcome :=
  { meta := upsertRecord meta { filename := file, format := fmt, downloadDate := now, size := some dlSize }
    transferred := true
    progressEvents := dlProgress
    alreadyAvailable := false }

/-- `handleDownloadModel` (src/App.tsx lines 321-413) as a function of the
environment: whether the destination file already exists, the result of
`RNFS.stat` on it (`none` models the stat call throwing), and whether the
subsequent `loadModel` succeeds.  When the file exists, the size is
backfilled and the model loaded; only if that load succeeds does the
function return early — otherwise it falls through to the transfer. -/
def handleDownloadModel (file fmt : String) (fileOnDisk : Bool)
    (statResult : Option Nat) (loadOk : Bool) (now : String) (dlSize : Nat)
    (dlProgress : List Nat) (meta : List ModelMetadata) : DownloadOutcome :=
  if fileOnDisk then
    let meta1 := match statResult with
      | some sz => backfillSize meta file sz
      | none => meta
    if loadOk then
      { meta := meta1, transferred := false, progressEvents := [], alreadyAvailable := true }
    else doTransfer file fmt now dlSize dlProgress meta1
  else doTransfer file fmt now dlSize dlProgress meta

/-- C7 counterexample: the destination file exists (500 bytes on disk),
yet because the model load fails the code falls through to the transfer
branch: the byte transfer is performed and progress callbacks fire, so
"skips the byte transfer entirely" does not hold as stated. -/
theorem download_transfers_despite_existing_file :
    (handleDownloadModel "m.gguf" "Qwen2-0.5B-Instruct" true (some 500) false
      "t1" 500 [25, 100] [⟨"m.gguf", "Qwen2-0.5B-Instruct", "t0", none⟩]).transferred
      = true ∧
    (handleDownloadModel "m.gguf" "Qwen2-0.5B-Instruct" true (some 500) false
      "t1" 500 [25, 100] [⟨"m.gguf", "Qwen2-0.5B-Instruct", "t0", none⟩]).progressEvents
      = [25, 100] := by
  decide

lemma backfillSize_spec (file : String) (sz : Nat) (m : ModelMetadata)
    (post : List ModelMetadata) :
    ∀ pre : List ModelMetadata, (∀ x ∈ pre, x.filename ≠ file) →
    m.filename = file → m.size = none →
    backfillSize (pre ++ m :: post) file sz =
      pre ++ { m with size := some sz } :: post := by
  intro pre
  induction pre with
  | nil =>
    intro _ hfn hsz
    simp only [List.nil_append, backfillSize, hfn, if_true, hsz, jsFalsySize]
  | cons x rest ih =>
    intro hpre hfn hsz
    simp only [List.cons_append, backfillSize, hpre x (List.mem_cons_self _ _),
      if_false]
    exact congrArg (fun l => x :: l)
      (ih (fun y hy => hpre y (List.mem_cons_of_mem _ hy)) hfn hsz)

/-- C7 amended: when the destination file already exists and the
subsequent model load succeeds, no transfer is performed and no progress
callback fires; the measured size is backfilled into the (first) record
for that filename when its size was missing, and the model is reported as
already available. -/
theorem download_skips_when_load_succeeds (file fmt now : String)
    (sz dlSize : Nat) (dlProgress : List Nat) (pre post : List ModelMetadata)
    (m : ModelMetadata) (hpre : ∀ x ∈ pre, x.filename ≠ file)
    (hfn : m.filename = file) (hsz : m.size = none) :
    handleDownloadModel file fmt true (some sz) true now dlSize dlProgress
        (pre ++ m :: post) =
      { meta := pre ++ { m with size := some sz } :: post
        transferred := false
        progressEvents := []
        alreadyAvailable := true } := by
  simp only [handleDownloadModel, if_true]
  rw [backfillSize_spec file sz m post pre hpre hfn hsz]

theorem download_skips_when_load_succeeds_witness :
    (∀ x ∈ ([] : List ModelMetadata), x.filename ≠ "m.gguf") ∧
    (⟨"m.gguf", "Qwen2-0.5B-Instruct", "t0", none⟩ : ModelMetadata).filename = "m.gguf" ∧
    (⟨"m.gguf", "Qwen2-0.5B-Instruct", "t0", none⟩ : ModelMetadata).size = none ∧
    handleDownloadModel "m.gguf" "Qwen2-0.5B-Instruct" true (some 500) true "t1" 500 []
        ([] ++ (⟨"m.gguf", "Qwen2-0.5B-Instruct", "t0", none⟩ : ModelMetadata) :: []) =
      { meta := [] ++ { (⟨"m.gguf", "Qwen2-0.5B-Instruct", "t0", none⟩ : ModelMetadata) with
          size := some 500 } :: []
        transferred := false
        progressEvents := []
        alreadyAvailable := true } :=
  ⟨fun x hx => absurd hx (List.not_mem_nil x),
   rfl, rfl,
   download_skips_when_load_succeeds "m.gguf" "Qwen2-0.5B-Instruct" "t1" 500 500 []
     [] [] ⟨"m.gguf", "Qwen2-0.5B-Instruct", "t0", none⟩
     (fun x hx => absurd hx (List.not_mem_nil x)) rfl rfl⟩

/-- The persist effect on `modelMetadata` changes (src/App.tsx lines
110-128): the full mapping is written to the backing record file, but only
when the mapping is non-empty — `if (modelMetadata.length > 0)`.  `stored`
is the file's current contents (`none` when it does not exist). -/
def persistEffect (stored : Option (List ModelMetadata))
    (meta : List ModelMetadata) : Option (List ModelMetadata) :=
  if meta.length > 0 then some meta else stored

/-- The startup load (src/App.tsx lines 92-108): parse the record file
when it exists, otherwise keep the initial empty mapping. -/
def loadMetadata (stored : Option (List ModelMetadata)) : List ModelMetadata :=
  match stored with
  | some m => m
  | none => []

/-- The metadata mutation of `deleteModel` (src/App.tsx line 659). -/
def deleteRecord (meta : List ModelMetadata) (file : String) : List ModelMetadata :=
  meta.filter (fun m => decide (m.filename ≠ file))

/-- C8 counterexample: removing the last remaining record yields the empty
mapping, the persist effect's length guard skips the write, the backing
file keeps the old mapping, and the subsequent load returns the removed
record instead of the empty mapping — `load(save(M))` fails for `M = []`. -/
theorem delete_last_record_not_persisted :
    deleteRecord [⟨"a.gguf", "Unknown", "t0", some 5⟩] "a.gguf" = [] ∧
    loadMetadata (persistEffect (some [⟨"a.gguf", "Unknown", "t0", some 5⟩])
        (deleteRecord [⟨"a.gguf", "Unknown", "t0", some 5⟩] "a.gguf")) =
      [⟨"a.gguf", "Unknown", "t0", some 5⟩] := by
  decide

/-- C8 amended: every mutation that leaves the mapping non-empty persists
the full mapping and a subsequent load returns exactly it —
`load(save(M)) = M` for every non-empty `M` — but a mutation that empties
the mapping (removing the last remaining record) is not persisted: the
backing file keeps its previous contents. -/
theorem persist_roundtrip_nonempty (stored : Option (List ModelMetadata))
    (meta : List ModelMetadata) (h : meta ≠ []) :
    loadMetadata (persistEffect stored meta) = meta := by
  cases meta with
  | nil => exact absurd rfl h
  | cons m rest => simp [persistEffect, loadMetadata]

theorem persist_roundtrip_nonempty_witness :
    ([⟨"a.gguf", "Unknown", "t0", some 5⟩] : List ModelMetadata) ≠ [] ∧
    loadMetadata (persistEffect none [⟨"a.gguf", "Unknown", "t0", some 5⟩]) =
      [⟨"a.gguf", "Unknown", "t0", some 5⟩] :=
  ⟨by decide, persist_roundtrip_nonempty none [⟨"a.gguf", "Unknown", "t0", some 5⟩]
    (by decide)⟩

/-- The conversation-level state relevant to throughput attribution: the
conversation log and the `tokensPerSecond` sample list.  Timing values are
modelled as natural numbers. -/
structure ChatState where
  conv : List Turn
  tps : List Nat
deriving DecidableEq, Repr

/-- The state at app start / after reset: the fixed system message, no
samples. -/
def initialChat : ChatState :=
  { conv := [systemTurn], tps := [] }

/-- One `handleSendMessage` run (src/App.tsx lines 496-622): the user turn
and the empty assistant placeholder are appended before completion starts;
the token callback fills the placeholder; only when `context.completion`
resolves normally (`Except.ok` with the timing value) is a tokens-per-second
sample appended — when it throws (`Except.error`), the catch block shows an
alert and no sample is recorded, while the assistant turn stays in the
log. -/
def runCompletion (st : ChatState) (userMsg : String) (frags : List String)
    (outcome : Except String Nat) : ChatState :=
  let conv2 := st.conv ++ [{ role := Role.user, content := userMsg, thought := none, showThought := false },
    (processAll frags).turn]
  match outcome with
  | Except.ok t => { conv := conv2, tps := st.tps ++ [t] }
  | Except.error _ => { conv := conv2, tps := st.tps }

/-- A sequence of sends: each entry is the user message, the token
fragments delivered, and the completion outcome. -/
def runAllCompletions : ChatState → List (String × List String × Except String Nat) → ChatState
  | st, [] => st
  | st, r :: rest => runAllCompletions (runCompletion st r.1 r.2.1 r.2.2) rest

/-- Number of assistant turns in a conversation log. -/
def countAssistant (conv : List Turn) : Nat :=
  (conv.filter (fun t => decide (t.role = Role.assistant))).length

/-- C9 counterexample: a first run that ends in an error followed by a
normal run leaves two assistant turns but a single throughput sample, so
the samples are not in one-to-one positional correspondence with the
assistant turns — the single sample (from the second turn) is displayed
against the first assistant turn. -/
theorem throughput_misaligned_after_error :
    countAssistant (runAllCompletions initialChat
      [("q1", [], Except.error "boom"), ("q2", ["ok"], Except.ok 5)]).conv = 2 ∧
    (runAllCompletions initialChat
      [("q1", [], Except.error "boom"), ("q2", ["ok"], Except.ok 5)]).tps = [5] := by
  decide

lemma processAll_turn_role (frags : List String) :
    (processAll frags).turn.role = Role.assistant := by
  suffices h : ∀ st : StreamState, st.turn.role = Role.assistant →
      (List.foldl processToken st frags).turn.role = Role.assistant from
    h initialStreamState rfl
  induction frags with
  | nil => intro st h0; exact h0
  | cons f rest ih =>
    intro st h0
    simp only [List.foldl_cons]
    refine ih (processToken st f) ?_
    unfold processToken
    cases hb : strContains f "<think>" <;> cases hd : strContains f "</think>" <;>
      cases hc : st.inThink <;> simp [hb, hd, hc, h0]

lemma countAssistant_append_run (conv : List Turn) (userMsg : String)
    (frags : List String) :
    countAssistant (conv ++ [{ role := Role.user, content := userMsg, thought := none, showThought := false },
      (processAll frags).turn]) = countAssistant conv + 1 := by
  unfold countAssistant
  rw [List.filter_append, List.length_append]
  congr 1
  simp [List.filter, processAll_turn_role frags]

lemma runAllCompletions_ok (runs : List (String × List String × Nat)) :
    ∀ st : ChatState,
    (runAllCompletions st (runs.map (fun r => (r.1, r.2.1, Except.ok r.2.2)))).tps
      = st.tps ++ runs.map (fun r => r.2.2) ∧
    countAssistant (runAllCompletions st
        (runs.map (fun r => (r.1, r.2.1, Except.ok r.2.2)))).conv
      = countAssistant st.conv + runs.length := by
  induction runs with
  | nil => intro st; simp [runAllCompletions]
  | cons r rest ih =>
    intro st
    simp only [List.map_cons, runAllCompletions]
    have h1 := ih (runCompletion st r.1 r.2.1 (Except.ok r.2.2))
    constructor
    · rw [h1.1]
      simp [runCompletion]
    · rw [h1.2]
      show countAssistant (st.conv ++ _) + rest.length = _
      rw [countAssistant_append_run]
      simp [List.length_cons]
      omega

/-- C9 amended: a throughput sample is recorded only for runs whose
completion resolves normally; a run that ends in an error still leaves its
assistant turn in the log but records no sample.  When every run completes
normally the correspondence is exact: after `n` normal runs the sample
list is precisely the runs' timing values in order and the log holds `n`
assistant turns, the `i`-th sample belonging to the `i`-th assistant
turn. -/
theorem throughput_aligned_when_all_succeed
    (runs : List (String × List String × Nat)) :
    (runAllCompletions initialChat
        (runs.map (fun r => (r.1, r.2.1, Except.ok r.2.2)))).tps
      = runs.map (fun r => r.2.2) ∧
    countAssistant (runAllCompletions initialChat
        (runs.map (fun r => (r.1, r.2.1, Except.ok r.2.2)))).conv
      = runs.length := by
  have h := runAllCompletions_ok runs initialChat
  refine ⟨?_, ?_⟩
  · rw [h.1]; rfl
  · rw [h.2]
    have h0 : countAssistant initialChat.conv = 0 := rfl
    omega
